import Mathlib

/-!
Shallow embedding of the STM32F0 I2S quadrature generator (`src/main.c`):
the DDS tuning-word computation, the phase accumulator, the wavetable
generation loop of `main`, the half-buffer fill routine `Populate`, and the
DMA interrupt handler `DMA1_Channel2_3_IRQHandler`.  Machine integers are
modelled as `ℕ` with explicit `% 2^32` where the C code works in `uint32_t`;
16-bit samples are modelled as `ℤ`.
-/

namespace QuadGen

/-- Sampling frequency `FS` (46875 Hz, line 62 of `main.c`). -/
def FS : ℕ := 46875

/-- Waveform output frequency `FREQOUT` (8000 Hz, line 65 of `main.c`). -/
def FREQOUT : ℕ := 8000

/-- `DMA_BUFSIZ` (line 57): the number of scalar samples written by one
`Populate` call; the DMA buffer holds `DMA_BUFSIZ*2` scalar samples. -/
def DMA_BUFSIZ : ℕ := 32

/-- Length of the `dmabuf` array in scalar `int16_t` samples:
`int16_t dmabuf[DMA_BUFSIZ*2]` (line 68). -/
def dmabufLen : ℕ := DMA_BUFSIZ * 2

/-- `2^32`, the modulus of `uint32_t` arithmetic. -/
def U32 : ℕ := 2 ^ 32

/-- The tuning word `tw` of `Populate` (line 83):
`(4294967296UL/(2*FS))*FREQOUT`.  The literal `4294967296` does not fit in a
32-bit `unsigned long`, so it promotes to `unsigned long long` and the whole
expression is evaluated in 64-bit arithmetic; the store into the
`const uint32_t` then reduces it modulo `2^32`. -/
def tw : ℕ := 4294967296 / (2 * FS) * FREQOUT % U32

/-- Modelled from the spec: `ComputeTuningWord(sampleRate, channelCount,
targetFrequency) = floor(2^32 / (channelCount * sampleRate)) *
targetFrequency` (spec section 4.2).  The source computes this expression only
at the fixed configuration, inline in `Populate`; this definition follows the
spec wording and is compared with `tw` in the C2 theorem. -/
def ComputeTuningWord (sampleRate channelCount targetFrequency : ℕ) : ℕ :=
  2 ^ 32 / (channelCount * sampleRate) * targetFrequency

/-- `sinph = phac>>(32-8)` (line 91). -/
def sineIndex (phac : ℕ) : ℕ := phac >>> 24

/-- `cosph = (sinph + 256/4)&255` (line 96). -/
def cosineIndex (phac : ℕ) : ℕ := (sineIndex phac + 64) &&& 255

/-- `phac += tw` (line 112), in `uint32_t` arithmetic. -/
def advance (phac : ℕ) : ℕ := (phac + tw) % U32

/-- The sample stored to `dmabuf[n]` by one iteration of the `Populate` loop
(lines 99-106): `sinewt[sinph]` when `n` is odd (right channel),
`sinewt[cosph]` when `n` is even (left channel).  The wavetable is passed as
a parameter `wt` so that the fill routine stays executable. -/
def ddsSample (wt : ℕ → ℤ) (phac n : ℕ) : ℤ :=
  if n % 2 = 1 then wt (sineIndex phac) else wt (cosineIndex phac)

/-- The loop of `Populate` (lines 89-113), by remaining iteration count:
`populateLoop wt k n phac buf` runs the body for indices `n, n+1, ...,
n+k-1`, writing `ddsSample` at each index and advancing the phase
accumulator once per scalar sample. -/
def populateLoop (wt : ℕ → ℤ) : ℕ → ℕ → ℕ → (ℕ → ℤ) → ℕ × (ℕ → ℤ)
  | 0, _, phac, buf => (phac, buf)
  | k + 1, n, phac, buf =>
      populateLoop wt k (n + 1) (advance phac)
        (fun i => if i = n then ddsSample wt phac n else buf i)

/-- `Populate(pos)` (lines 80-114): fills buffer positions
`pos, ..., pos+DMA_BUFSIZ-1` and returns the new phase accumulator together
with the new buffer contents. -/
def Populate (wt : ℕ → ℤ) (pos phac : ℕ) (buf : ℕ → ℤ) : ℕ × (ℕ → ℤ) :=
  populateLoop wt DMA_BUFSIZ pos phac buf

/-- State visible to the DMA interrupt handler: the pending half-transfer
(`HT3`) and transfer-complete (`TC3`) interrupt flags, plus the
`Populate`-owned phase accumulator and the DMA buffer. -/
structure DmaState where
  htPending : Bool
  tcPending : Bool
  phac : ℕ
  buf : ℕ → ℤ

/-- `DMA1_Channel2_3_IRQHandler` (lines 117-130): if `HT3` is pending, clear
it and `Populate(0)`; else if `TC3` is pending, clear it and
`Populate(DMA_BUFSIZ)`. -/
def DMA1_Channel2_3_IRQHandler (wt : ℕ → ℤ) (s : DmaState) : DmaState :=
  if s.htPending then
    let r := Populate wt 0 s.phac s.buf
    { s with htPending := false, phac := r.1, buf := r.2 }
  else if s.tcPending then
    let r := Populate wt DMA_BUFSIZ s.phac s.buf
    { s with tcPending := false, phac := r.1, buf := r.2 }
  else s

/-- The C conversion from `double` to `int16_t` truncates toward zero
(C11 6.3.1.4): floor for nonnegative values, ceiling for negative ones. -/
noncomputable def cTrunc (x : ℝ) : ℤ := if 0 ≤ x then ⌊x⌋ else ⌈x⌉

/-- The wavetable generation loop of `main` (lines 184-187):
`sinewt[n] = 32767*sin((double)n*2*M_PI/256.0)`, with the `double` result
converted to `int16_t` by truncation toward zero.  The floating-point sine is
idealised as the real sine. -/
noncomputable def sinewt (i : ℕ) : ℤ :=
  cTrunc (32767 * Real.sin ((i : ℝ) * 2 * Real.pi / 256))

/-- Modelled from the spec: the wavetable entry as spec section 4.1 words it,
`round(amplitude * sin(2 pi i / tableSize))` with round-to-nearest, for the
comparison in C6. -/
noncomputable def sinewtRounded (i : ℕ) : ℤ :=
  round ((32767 : ℝ) * Real.sin ((i : ℝ) * 2 * Real.pi / 256))

lemma advance_lt (phac : ℕ) : advance phac < U32 :=
  Nat.mod_lt _ (by norm_num [U32])

lemma populateLoop_fst (wt : ℕ → ℤ) (k : ℕ) :
    ∀ n phac buf, phac < U32 →
      (populateLoop wt k n phac buf).1 = (phac + k * tw) % U32 := by
  induction k with
  | zero =>
      intro n phac buf h
      simp [populateLoop, Nat.mod_eq_of_lt h]
  | succ k ih =>
      intro n phac buf h
      have h2 := ih (n + 1) (advance phac)
        (fun i => if i = n then ddsSample wt phac n else buf i) (advance_lt phac)
      rw [populateLoop, h2, advance, Nat.mod_add_mod]
      congr 1
      ring

lemma populateLoop_frame (wt : ℕ → ℤ) (k : ℕ) :
    ∀ n phac buf i, i < n ∨ n + k ≤ i →
      (populateLoop wt k n phac buf).2 i = buf i := by
  induction k with
  | zero => intro n phac buf i _; rfl
  | succ k ih =>
      intro n phac buf i hi
      rw [populateLoop, ih (n + 1) (advance phac) _ i (by omega)]
      have hne : i ≠ n := by omega
      simp [hne]

lemma populateLoop_write (wt : ℕ → ℤ) (k : ℕ) :
    ∀ n phac buf i, phac < U32 → n ≤ i → i < n + k →
      (populateLoop wt k n phac buf).2 i =
        ddsSample wt ((phac + (i - n) * tw) % U32) i := by
  induction k with
  | zero => intro n phac buf i _ h1 h2; omega
  | succ k ih =>
      intro n phac buf i h h1 h2
      by_cases hi : i = n
      · subst hi
        rw [populateLoop,
          populateLoop_frame wt k (i + 1) (advance phac) _ i (by omega)]
        simp [Nat.mod_eq_of_lt h]
      · rw [populateLoop,
          ih (n + 1) (advance phac) _ i (advance_lt phac) (by omega) (by omega)]
        have h3 : i - n = i - (n + 1) + 1 := by omega
        rw [advance, Nat.mod_add_mod, h3]
        congr 2
        ring

lemma advance_iter (k : ℕ) :
    ∀ phac, phac < U32 → advance^[k] phac = (phac + k * tw) % U32 := by
  induction k with
  | zero => intro phac h; simp [Nat.mod_eq_of_lt h]
  | succ k ih =>
      intro phac h
      rw [Function.iterate_succ_apply, ih (advance phac) (advance_lt phac),
        advance, Nat.mod_add_mod]
      congr 1
      ring

/-- C1: One `Populate(pos)` call writes, at each absolute buffer position `p`
of the selected half, `sinewt[SineIndex()]` when `p` is odd and
`sinewt[CosineIndex()]` when `p` is even — the indices being derived from the
phase accumulator as advanced once per scalar sample already written — and
leaves the accumulator advanced exactly `DMA_BUFSIZ` times, once per scalar
sample written. -/
theorem populate_quadrature_samples (wt : ℕ → ℤ) (pos phac : ℕ) (buf : ℕ → ℤ)
    (h : phac < U32) :
    (∀ p, pos ≤ p → p < pos + DMA_BUFSIZ →
      (Populate wt pos phac buf).2 p =
        if p % 2 = 1 then wt (sineIndex ((phac + (p - pos) * tw) % U32))
        else wt (cosineIndex ((phac + (p - pos) * tw) % U32))) ∧
    (Populate wt pos phac buf).1 = (phac + DMA_BUFSIZ * tw) % U32 := by
  constructor
  · intro p h1 h2
    rw [Populate, populateLoop_write wt DMA_BUFSIZ pos phac buf p h h1 h2,
      ddsSample]
  · exact populateLoop_fst wt DMA_BUFSIZ pos phac buf h

/-- Witness for C1 at the concrete input `wt = id`, `pos = 0`, `phac = 0`,
zero-filled buffer, position 3: the phase there is `3 * tw` and the position
is odd, so the sine index `3 * tw >>> 24 = 65` is written. -/
theorem populate_quadrature_samples_witness :
    (Populate (fun i => (i : ℤ)) 0 0 (fun _ => 0)).2 3 = 65 := by
  have h := (populate_quadrature_samples (fun i => (i : ℤ)) 0 0 (fun _ => 0)
    (by decide)).1 3 (by decide) (by decide)
  rw [h]
  decide

/-- C2: the tuning word of `Populate` equals the spec's
`ComputeTuningWord(46875, 2, 8000) = floor(2^32 / 93750) * 8000`, and this is
the exact literal integer 366496000. -/
theorem tuning_word_value :
    tw = ComputeTuningWord 46875 2 8000 ∧
    tw = 2 ^ 32 / 93750 * 8000 ∧ tw = 366496000 := by
  refine ⟨by decide, by decide, by decide⟩

/-- C3: the phase accumulator carries over unchanged between consecutive
fills.  Filling the first half (`Populate(0)`) and then the second half
(`Populate(DMA_BUFSIZ)`) drives every scalar position `p < 2*DMA_BUFSIZ` of
the full buffer from the phase `phac + p * tw (mod 2^32)` — a single
arithmetic progression with constant step `tw`, with no skipped or duplicated
phase step at the half boundary — and ends with the accumulator advanced
exactly `2*DMA_BUFSIZ` times. -/
theorem phase_continuity_across_halves (wt : ℕ → ℤ) (phac : ℕ) (buf : ℕ → ℤ)
    (h : phac < U32) :
    (∀ p, p < 2 * DMA_BUFSIZ →
      (Populate wt DMA_BUFSIZ (Populate wt 0 phac buf).1
          (Populate wt 0 phac buf).2).2 p =
        ddsSample wt ((phac + p * tw) % U32) p) ∧
    (Populate wt DMA_BUFSIZ (Populate wt 0 phac buf).1
        (Populate wt 0 phac buf).2).1 = (phac + 2 * DMA_BUFSIZ * tw) % U32 ∧
    (∀ j, ((phac + j * tw) % U32 + tw) % U32 = (phac + (j + 1) * tw) % U32) := by
  have hfst : (Populate wt 0 phac buf).1 = (phac + DMA_BUFSIZ * tw) % U32 :=
    populateLoop_fst wt DMA_BUFSIZ 0 phac buf h
  have hlt : (Populate wt 0 phac buf).1 < U32 := by
    rw [hfst]
    exact Nat.mod_lt _ (by norm_num [U32])
  refine ⟨?_, ?_, ?_⟩
  · intro p hp
    by_cases hp1 : p < DMA_BUFSIZ
    · have h1 : (Populate wt DMA_BUFSIZ (Populate wt 0 phac buf).1
            (Populate wt 0 phac buf).2).2 p = (Populate wt 0 phac buf).2 p :=
        populateLoop_frame wt DMA_BUFSIZ DMA_BUFSIZ _ _ p (Or.inl hp1)
      have h2 : (Populate wt 0 phac buf).2 p =
          ddsSample wt ((phac + (p - 0) * tw) % U32) p :=
        populateLoop_write wt DMA_BUFSIZ 0 phac buf p h (Nat.zero_le p)
          (by omega)
      rw [h1, h2, Nat.sub_zero]
    · have h1 : (Populate wt DMA_BUFSIZ (Populate wt 0 phac buf).1
              (Populate wt 0 phac buf).2).2 p =
            ddsSample wt
              (((Populate wt 0 phac buf).1 + (p - DMA_BUFSIZ) * tw) % U32) p :=
          populateLoop_write wt DMA_BUFSIZ DMA_BUFSIZ _ _ p hlt (by omega)
            (by omega)
      have h3 : p - DMA_BUFSIZ + DMA_BUFSIZ = p := by omega
      have h4 : phac + DMA_BUFSIZ * tw + (p - DMA_BUFSIZ) * tw =
          phac + p * tw := by
        calc phac + DMA_BUFSIZ * tw + (p - DMA_BUFSIZ) * tw
            = phac + (p - DMA_BUFSIZ + DMA_BUFSIZ) * tw := by ring
          _ = phac + p * tw := by rw [h3]
      rw [h1, hfst, Nat.mod_add_mod, h4]
  · have h1 : (Populate wt DMA_BUFSIZ (Populate wt 0 phac buf).1
          (Populate wt 0 phac buf).2).1 =
        ((Populate wt 0 phac buf).1 + DMA_BUFSIZ * tw) % U32 :=
      populateLoop_fst wt DMA_BUFSIZ DMA_BUFSIZ _ _ hlt
    have h4 : phac + DMA_BUFSIZ * tw + DMA_BUFSIZ * tw =
        phac + 2 * DMA_BUFSIZ * tw := by ring
    rw [h1, hfst, Nat.mod_add_mod, h4]
  · intro j
    have h4 : phac + j * tw + tw = phac + (j + 1) * tw := by ring
    rw [Nat.mod_add_mod, h4]

/-- Witness for C3 at `wt = id`, `phac = 0`, zero buffer, at the seam
position `p = DMA_BUFSIZ = 32` just after the half boundary. -/
theorem phase_continuity_across_halves_witness :
    (Populate (fun i => (i : ℤ)) DMA_BUFSIZ
        (Populate (fun i => (i : ℤ)) 0 0 (fun _ => 0)).1
        (Populate (fun i => (i : ℤ)) 0 0 (fun _ => 0)).2).2 32 =
      ddsSample (fun i => (i : ℤ)) ((0 + 32 * tw) % U32) 32 :=
  (phase_continuity_across_halves (fun i => (i : ℤ)) 0 (fun _ => 0)
    (by decide)).1 32 (by decide)

/-- C4: for every 32-bit phase value, the sine table index is the top 8 bits
of the phase (shift right by 24, hence below 256) and the cosine index is the
sine index plus 64, reduced mod 256: `(sinph + 64) &&& 255 = (sinph + 64) %
256`. -/
theorem cosine_quarter_cycle_offset (phac : ℕ) (h : phac < U32) :
    sineIndex phac = phac / 2 ^ 24 ∧ sineIndex phac < 256 ∧
    cosineIndex phac = (sineIndex phac + 64) % 256 := by
  refine ⟨Nat.shiftRight_eq_div_pow phac 24, ?_, ?_⟩
  · rw [sineIndex, Nat.shiftRight_eq_div_pow]
    have h2 : phac < 256 * 2 ^ 24 := by
      calc phac < U32 := h
        _ = 256 * 2 ^ 24 := by norm_num [U32]
    exact Nat.div_lt_of_lt_mul h2
  · rw [cosineIndex]
    have h3 := Nat.and_pow_two_sub_one_eq_mod (sineIndex phac + 64) 8
    simpa using h3

/-- Witness for C4 at the concrete phase `5 * 2 ^ 24`. -/
theorem cosine_quarter_cycle_offset_witness :
    sineIndex (5 * 2 ^ 24) = 5 * 2 ^ 24 / 2 ^ 24 ∧
    sineIndex (5 * 2 ^ 24) < 256 ∧
    cosineIndex (5 * 2 ^ 24) = (sineIndex (5 * 2 ^ 24) + 64) % 256 :=
  cosine_quarter_cycle_offset (5 * 2 ^ 24) (by decide)

/-- C5: iterating `Advance` (`phac += tw` in `uint32_t`) `k` times from any
32-bit start value `phac` yields `(phac + k * tw) mod 2^32`. -/
theorem advance_iterated (phac k : ℕ) (h : phac < U32) :
    advance^[k] phac = (phac + k * tw) % U32 :=
  advance_iter k phac h

/-- Witness for C5 at `phac = 7`, `k = 3`. -/
theorem advance_iterated_witness : advance^[3] 7 = (7 + 3 * tw) % U32 :=
  advance_iterated 7 3 (by decide)

/-- Counterexample for C7: the `Populate`d half of the DMA buffer is
`DMA_BUFSIZ = 32` scalar samples (16 stereo frames), and the whole buffer
`dmabuf` holds `DMA_BUFSIZ*2 = 64` scalar samples — not the 64 scalar
samples per half and 128 total that the claim states. -/
theorem buffer_sizes_counterexample :
    DMA_BUFSIZ = 32 ∧ dmabufLen = 64 ∧ ¬(dmabufLen = 128) ∧
    ¬(DMA_BUFSIZ = 64) := by
  refine ⟨by decide, by decide, by decide, by decide⟩

/-- C7 (amended): each half of the double buffer holds 16 stereo frames,
i.e. `DMA_BUFSIZ = 32` scalar samples per half and 64 scalar samples in the
whole buffer, and one fill call writes exactly one such half: every position
of `[pos, pos + DMA_BUFSIZ)` receives the DDS sample for its phase, and no
position outside that range changes. -/
theorem buffer_half_sizes (wt : ℕ → ℤ) (pos phac : ℕ) (buf : ℕ → ℤ)
    (h : phac < U32) :
    DMA_BUFSIZ = 2 * 16 ∧ dmabufLen = 2 * DMA_BUFSIZ ∧ dmabufLen = 64 ∧
    (∀ i, i < pos ∨ pos + DMA_BUFSIZ ≤ i →
      (Populate wt pos phac buf).2 i = buf i) ∧
    (∀ i, pos ≤ i → i < pos + DMA_BUFSIZ →
      (Populate wt pos phac buf).2 i =
        ddsSample wt ((phac + (i - pos) * tw) % U32) i) := by
  refine ⟨by decide, by decide, by decide, ?_, ?_⟩
  · intro i hi
    exact populateLoop_frame wt DMA_BUFSIZ pos phac buf i hi
  · intro i h1 h2
    exact populateLoop_write wt DMA_BUFSIZ pos phac buf i h h1 h2

/-- Witness for C7 (amended) at `wt = id`, `pos = DMA_BUFSIZ`, `phac = 0`:
position 10 lies in the first half and is untouched by the second-half
fill. -/
theorem buffer_half_sizes_witness :
    (Populate (fun i => (i : ℤ)) DMA_BUFSIZ 0 (fun _ => (7 : ℤ))).2 10 = 7 :=
  (buffer_half_sizes (fun i => (i : ℤ)) DMA_BUFSIZ 0 (fun _ => (7 : ℤ))
    (by decide)).2.2.2.1 10 (by decide)

/-- C8: the interrupt handler performs exactly these transitions: when the
half-transfer flag `HT3` is pending it clears that flag and runs
`Populate(0)` (fill the first half); when `HT3` is clear and the
transfer-complete flag `TC3` is pending it clears `TC3` and runs
`Populate(DMA_BUFSIZ)` (fill the second half); with neither flag pending the
state is unchanged. -/
theorem irq_handler_transitions (wt : ℕ → ℤ) (s : DmaState) :
    (s.htPending = true →
      DMA1_Channel2_3_IRQHandler wt s =
        { htPending := false, tcPending := s.tcPending,
          phac := (Populate wt 0 s.phac s.buf).1,
          buf := (Populate wt 0 s.phac s.buf).2 }) ∧
    (s.htPending = false → s.tcPending = true →
      DMA1_Channel2_3_IRQHandler wt s =
        { htPending := false, tcPending := false,
          phac := (Populate wt DMA_BUFSIZ s.phac s.buf).1,
          buf := (Populate wt DMA_BUFSIZ s.phac s.buf).2 }) ∧
    (s.htPending = false → s.tcPending = false →
      DMA1_Channel2_3_IRQHandler wt s = s) := by
  obtain ⟨ht, tc, phac, buf⟩ := s
  refine ⟨?_, ?_, ?_⟩
  · intro h1
    simp only at h1
    simp [DMA1_Channel2_3_IRQHandler, h1]
  · intro h1 h2
    simp only at h1 h2
    simp [DMA1_Channel2_3_IRQHandler, h1, h2]
  · intro h1 h2
    simp only at h1 h2
    simp [DMA1_Channel2_3_IRQHandler, h1, h2]

/-- Witness for C8: with both flags pending, the handler services the
half-transfer event only — it clears `HT3`, leaves `TC3` pending, and fills
the first half. -/
theorem irq_handler_transitions_witness :
    DMA1_Channel2_3_IRQHandler (fun i => (i : ℤ))
        ⟨true, true, 0, fun _ => 0⟩ =
      { htPending := false, tcPending := true,
        phac := (Populate (fun i => (i : ℤ)) 0 0 (fun _ => 0)).1,
        buf := (Populate (fun i => (i : ℤ)) 0 0 (fun _ => 0)).2 } :=
  (irq_handler_transitions (fun i => (i : ℤ))
    ⟨true, true, 0, fun _ => 0⟩).1 rfl

/-- C9: `Populate(pos)` modifies exactly the scalar positions
`[pos, pos + DMA_BUFSIZ)`: every position outside that interval keeps its
previous value, and every position inside it is written with the DDS sample
for its phase. -/
theorem populate_writes_only_its_half (wt : ℕ → ℤ) (pos phac : ℕ)
    (buf : ℕ → ℤ) (h : phac < U32) :
    (∀ i, i < pos ∨ pos + DMA_BUFSIZ ≤ i →
      (Populate wt pos phac buf).2 i = buf i) ∧
    (∀ i, pos ≤ i → i < pos + DMA_BUFSIZ →
      (Populate wt pos phac buf).2 i =
        ddsSample wt ((phac + (i - pos) * tw) % U32) i) :=
  ⟨fun i hi => populateLoop_frame wt DMA_BUFSIZ pos phac buf i hi,
   fun i h1 h2 => populateLoop_write wt DMA_BUFSIZ pos phac buf i h h1 h2⟩

/-- Witness for C9 at `wt = id`, `pos = 0`, `phac = 0`: position 40 lies in
the second half and is untouched by a first-half fill. -/
theorem populate_writes_only_its_half_witness :
    (Populate (fun i => (i : ℤ)) 0 0 (fun _ => (3 : ℤ))).2 40 = 3 :=
  (populate_writes_only_its_half (fun i => (i : ℤ)) 0 0 (fun _ => (3 : ℤ))
    (by decide)).1 40 (by decide)

/-- C10: for every 32-bit phase accumulator value, both derived wavetable
indices are in bounds for the 256-entry table: `phac >>> 24 < 256` and
`(sinph + 64) &&& 255 < 256`. -/
theorem wavetable_indices_in_bounds (phac : ℕ) (h : phac < U32) :
    sineIndex phac < 256 ∧ cosineIndex phac < 256 := by
  constructor
  · rw [sineIndex, Nat.shiftRight_eq_div_pow]
    have h2 : phac < 256 * 2 ^ 24 := by
      calc phac < U32 := h
        _ = 256 * 2 ^ 24 := by norm_num [U32]
    exact Nat.div_lt_of_lt_mul h2
  · calc cosineIndex phac ≤ 255 := Nat.and_le_right
      _ < 256 := by norm_num

/-- Witness for C10 at the maximal 32-bit phase value. -/
theorem wavetable_indices_in_bounds_witness :
    sineIndex 4294967295 < 256 ∧ cosineIndex 4294967295 < 256 :=
  wavetable_indices_in_bounds 4294967295 (by decide)

lemma cTrunc_intCast (z : ℤ) : cTrunc (z : ℝ) = z := by
  unfold cTrunc
  by_cases h : (0 : ℝ) ≤ (z : ℝ)
  · simp [h]
  · simp [h]

lemma cTrunc_le_of_le {x : ℝ} {b : ℤ} (h : x ≤ (b : ℝ)) : cTrunc x ≤ b := by
  unfold cTrunc
  by_cases hx : (0 : ℝ) ≤ x
  · simp only [if_pos hx]
    calc ⌊x⌋ ≤ ⌊(b : ℝ)⌋ := Int.floor_le_floor h
      _ = b := Int.floor_intCast b
  · simp only [if_neg hx]
    calc ⌈x⌉ ≤ ⌈(b : ℝ)⌉ := Int.ceil_le_ceil h
      _ = b := Int.ceil_intCast b

lemma le_cTrunc_of_le {x : ℝ} {b : ℤ} (h : (b : ℝ) ≤ x) : b ≤ cTrunc x := by
  unfold cTrunc
  by_cases hx : (0 : ℝ) ≤ x
  · simp only [if_pos hx]
    calc b = ⌊(b : ℝ)⌋ := (Int.floor_intCast b).symm
      _ ≤ ⌊x⌋ := Int.floor_le_floor h
  · simp only [if_neg hx]
    calc b = ⌈(b : ℝ)⌉ := (Int.ceil_intCast b).symm
      _ ≤ ⌈x⌉ := Int.ceil_le_ceil h

/-- Counterexample for C6: at index 32 the angle is `pi/4`, so the exact
sample value is `32767 * sqrt 2 / 2 = 23169.797...`; the C conversion
truncates this to 23169, while the round-to-nearest of the spec wording
gives 23170. -/
theorem wavetable_rounding_counterexample :
    sinewt 32 = 23169 ∧ sinewtRounded 32 = 23170 ∧
    sinewt 32 ≠ sinewtRounded 32 := by
  have hang : ((32 : ℕ) : ℝ) * 2 * Real.pi / 256 = Real.pi / 4 := by
    push_cast
    ring
  have hsin : Real.sin (((32 : ℕ) : ℝ) * 2 * Real.pi / 256) =
      Real.sqrt 2 / 2 := by
    rw [hang, Real.sin_pi_div_four]
  have hlow : (46339 : ℝ) / 32767 < Real.sqrt 2 :=
    (Real.lt_sqrt (by positivity)).mpr (by norm_num)
  have hhigh : Real.sqrt 2 < (46340 : ℝ) / 32767 :=
    (Real.sqrt_lt (by norm_num) (by positivity)).mpr (by norm_num)
  have hx1 : (46339 : ℝ) / 2 < 32767 * (Real.sqrt 2 / 2) := by nlinarith
  have hx2 : 32767 * (Real.sqrt 2 / 2) < (23170 : ℝ) := by nlinarith
  have hxpos : (0 : ℝ) ≤ 32767 * (Real.sqrt 2 / 2) := by positivity
  have hfloor : sinewt 32 = 23169 := by
    rw [sinewt, hsin, cTrunc, if_pos hxpos]
    rw [Int.floor_eq_iff]
    constructor
    · push_cast
      linarith
    · push_cast
      linarith
  have hround : sinewtRounded 32 = 23170 := by
    rw [sinewtRounded, hsin, round_eq]
    rw [Int.floor_eq_iff]
    constructor
    · push_cast
      linarith
    · push_cast
      linarith
  refine ⟨hfloor, hround, ?_⟩
  rw [hfloor, hround]
  decide

/-- C6 (amended): the wavetable entry at index `i` is
`32767 * sin(2 pi i / 256)` converted to `int16_t` by C truncation toward
zero (not round-to-nearest); the quarter-cycle entries are exact:
`sinewt[0] = 0`, `sinewt[64] = 32767`, `sinewt[128] = 0`,
`sinewt[192] = -32767`, and every entry lies within the `int16_t` amplitude
`[-32767, 32767]`. -/
theorem wavetable_truncated_values :
    sinewt 0 = 0 ∧ sinewt 64 = 32767 ∧ sinewt 128 = 0 ∧
    sinewt 192 = -32767 ∧
    ∀ i, -32767 ≤ sinewt i ∧ sinewt i ≤ 32767 := by
  have h0 : sinewt 0 = 0 := by
    have hang : ((0 : ℕ) : ℝ) * 2 * Real.pi / 256 = 0 := by norm_num
    rw [sinewt, hang, Real.sin_zero, mul_zero]
    exact_mod_cast cTrunc_intCast 0
  have h64 : sinewt 64 = 32767 := by
    have hang : ((64 : ℕ) : ℝ) * 2 * Real.pi / 256 = Real.pi / 2 := by
      push_cast
      ring
    rw [sinewt, hang, Real.sin_pi_div_two, mul_one]
    exact_mod_cast cTrunc_intCast 32767
  have h128 : sinewt 128 = 0 := by
    have hang : ((128 : ℕ) : ℝ) * 2 * Real.pi / 256 = Real.pi := by
      push_cast
      ring
    rw [sinewt, hang, Real.sin_pi, mul_zero]
    exact_mod_cast cTrunc_intCast 0
  have h192 : sinewt 192 = -32767 := by
    have hang : ((192 : ℕ) : ℝ) * 2 * Real.pi / 256 =
        Real.pi / 2 + Real.pi := by
      push_cast
      ring
    rw [sinewt, hang, Real.sin_add_pi, Real.sin_pi_div_two]
    have hval : (32767 : ℝ) * -1 = ((-32767 : ℤ) : ℝ) := by norm_num
    rw [hval, cTrunc_intCast]
  refine ⟨h0, h64, h128, h192, ?_⟩
  intro i
  set θ : ℝ := ((i : ℕ) : ℝ) * 2 * Real.pi / 256 with hθ
  have hub : (32767 : ℝ) * Real.sin θ ≤ ((32767 : ℤ) : ℝ) := by
    have := Real.sin_le_one θ
    push_cast
    nlinarith
  have hlb : ((-32767 : ℤ) : ℝ) ≤ (32767 : ℝ) * Real.sin θ := by
    have := Real.neg_one_le_sin θ
    push_cast
    nlinarith
  exact ⟨le_cTrunc_of_le hlb, cTrunc_le_of_le hub⟩

end QuadGen

